import Mathlib

set_option maxHeartbeats 1000000
set_option linter.unusedSectionVars false

/-!
# Verification of the snark KZG polynomial commitment scheme

This file is a shallow embedding of the KZG-style polynomial commitment
scheme of the repository (src/PolynomialCommitmentScheme/Kzg.ts,
src/PolynomialCommitmentScheme.ts, src/PolynomialCommitmentScheme/CheatingKzg.ts,
the hiding variant ZkKzg, and the polynomial utilities evalPolyAt, addPoly,
mulPoly, lagrangeInterpolation), together with proofs of its specified
properties.

Modelling choices, fixed once for the whole file:

* The scalar field `bls12_381.fields.Fr` is an external collaborator
  (an `IField<bigint>` of prime order r, passed as a parameter by the
  polynomial utilities).  It is embedded as an abstract `Field F` with
  decidable equality; every theorem is parametric in `F` and therefore
  holds in particular for the prime field of order r.
* The curve groups G1 and G2 are cyclic of the same prime order r, so a
  point is represented by its discrete logarithm with respect to the
  group generator: the generator is `1 : F`, the point at infinity is
  `0 : F`, `P.add Q` is `+`, `P.subtract Q` is `-`, and `P.multiply s`
  (scalar multiplication) is `s * P`.  Discrete logarithm is a bijection
  from each group onto Z/r, so point equality is equality in `F`.
* The pairing `e : G1 × G2 → GT` lands in the order-r subgroup of Fp12
  generated by `e(G1, G2)`; an element of that subgroup is represented by
  its exponent over the generator `e(G1, G2)`.  Bilinearity gives
  `e(a·G1, b·G2) = e(G1, G2)^(a*b)`, so the embedded pairing of dlogs `a`
  and `b` is `a * b`, and `Fp12.eql` on such values is equality in `F`.
* Fallible code (a failed `assert`, a thrown `RangeError` from a negative
  array length, a TypeError from reading a missing array element, the
  field inversion of zero) is embedded with `Option`: `none` is a fatal
  failure, `some` a normal return.
* The JavaScript `degree` argument is an integer, embedded as `Int` so
  that non-positive degrees can be expressed.
-/

section PolyUtils

variable {F : Type} [Field F] [DecidableEq F]

/-- Embedding of `evalPolyAt` (src/utils/evalPolyAt.ts): Horner evaluation by
`reduceRight` from the highest coefficient, with initial accumulator `Fr.ZERO`
and step `Fr.add(Fr.mul(accumulator, x), current)`. -/
def evalPolyAt (coefficients : List F) (x : F) : F :=
  coefficients.foldr (fun current accumulator => accumulator * x + current) 0

/-- Embedding of `addPoly` (src/utils/addPoly.ts): the result has length
`max a.length b.length` and its slot `i` is written exactly once with
`Fr.add(valA, valB)` where a missing coefficient counts as `0n`. -/
def addPoly (a b : List F) : List F :=
  (List.range (max a.length b.length)).map (fun i => a.getD i 0 + b.getD i 0)

/-- The body of the inner loop of `mulPoly` (src/utils/mulPoly.ts):
`res[i + j] = Fr.add(res[i + j], Fr.mul(a[i], b[j]))`, as an update of the
result list at index `i + jb.1` given the current entry `jb = (j, b[j])` of
`b` and the fixed entry `(i, ai) = (i, a[i])` of `a`. -/
def mulPolyInner (i : Nat) (ai : F) (res : List F) (jb : Nat × F) : List F :=
  res.set (i + jb.1) (res.getD (i + jb.1) 0 + ai * jb.2)

/-- Embedding of `mulPoly` (src/utils/mulPoly.ts): a zero-filled result array
of length `a.length + b.length - 1`, then the nested index loops
`res[i + j] = Fr.add(res[i + j], Fr.mul(a[i], b[j]))`, rendered as folds over
the index–value pairs of `a` and `b` with `List.set` for the array update.
(The source would throw a RangeError from `new Array(-1)` when both inputs are
empty; no caller and no claim reaches that input, and the embedding returns
`[]` there.) -/
def mulPoly (a b : List F) : List F :=
  a.enum.foldl
    (fun res ia => b.enum.foldl (mulPolyInner ia.1 ia.2) res)
    (List.replicate (a.length + b.length - 1) 0)

/-- Embedding of the trailing-zero cleanup loop of `lagrangeInterpolation`
(src/utils/mulPoly.ts): `while (result.length > 0 && result[last] === 0n)
result.pop()` removes exactly the maximal run of zeros at the end of the
list. -/
def trimTrailingZeros (l : List F) : List F :=
  (l.reverse.dropWhile (fun c => decide (c = 0))).reverse

/-- The body of the inner loop of `lagrangeInterpolation`
(src/utils/mulPoly.ts): for the fixed outer index `i` with `xi = points[i].x`,
and the current entry `jp = (j, points[j])`, when `i !== j` it extends the
basis with `mulPoly(basis, [Fr.neg(points[j].x), 1n])` and the denominator
with `Fr.mul(denominator, Fr.sub(points[i].x, points[j].x))`; the pair `bd`
carries `(basis, denominator)`. -/
def lagrangeBasisStep (i : Nat) (xi : F) (bd : List F × F) (jp : Nat × (F × F)) :
    List F × F :=
  if i ≠ jp.1 then (mulPoly bd.1 [-jp.2.1, 1], bd.2 * (xi - jp.2.1)) else bd

/-- The body of the outer loop of `lagrangeInterpolation`
(src/utils/mulPoly.ts): the inner pass over all `(j, points[j])` from
`(basis, denominator) = ([1n], 1n)`, then
`termPoly = mulPoly(basis, [Fr.mul(points[i].y, Fr.inv(denominator))])` is
accumulated onto the running result with `addPoly`. -/
def lagrangeStep (points : List (F × F)) (result : List F) (ip : Nat × (F × F)) :
    List F :=
  let bd := points.enum.foldl (lagrangeBasisStep ip.1 ip.2.1) ([1], 1)
  let invDenom := bd.2⁻¹
  let termY := ip.2.2 * invDenom
  let termPoly := mulPoly bd.1 [termY]
  addPoly result termPoly

/-- Embedding of `lagrangeInterpolation` (src/utils/mulPoly.ts): for each
index `i`, one pass over all indices `j ≠ i` builds, in a single loop, the
basis polynomial and the denominator; the term is accumulated onto the running
result, initially `[0n]`; finally trailing zeros are popped.  (The source's
`Fr.inv` faults at `0`; the denominator is `0` only for repeated
interpolation points, which every claim excludes, and the embedding uses the
field inverse, which is total.) -/
def lagrangeInterpolation (points : List (F × F)) : List F :=
  trimTrailingZeros (points.enum.foldl (lagrangeStep points) [0])

end PolyUtils

namespace Kzg

/-- Discrete logarithm of the G1 generator `bls12_381.G1.Point.BASE`. -/
def G1 (F : Type) [Field F] : F := 1

/-- Discrete logarithm of the G2 generator `bls12_381.G2.Point.BASE`. -/
def G2 (F : Type) [Field F] : F := 1

/-- Discrete logarithm of the G1 identity `bls12_381.G1.Point.ZERO`. -/
def G1_ZERO (F : Type) [Field F] : F := 0

/-- Embedding of the pairing `bls12_381.pairing` on discrete logarithms:
`e(a·G1, b·G2) = e(G1, G2)^(a*b)` by bilinearity, so the exponent of the
result over `e(G1, G2)` is the product of the exponents. -/
def pairing {F : Type} [Field F] (p q : F) : F := p * q

variable {F : Type} [Field F] [DecidableEq F]

/-- The power-ladder loop of `Kzg._setup` (src/PolynomialCommitmentScheme/Kzg.ts):
`currentAlpha` starts at `1n`; each iteration pushes `G1.multiply(currentAlpha)`
and then sets `currentAlpha = Fr.mul(currentAlpha, alpha)`.  The `Nat` argument
is the remaining iteration count `degree + 1 - i`. -/
def setupLoop : Nat → F → F → List F
  | 0, _, _ => []
  | n + 1, currentAlpha, alpha =>
      currentAlpha * G1 F :: setupLoop n (currentAlpha * alpha) alpha

/-- Embedding of `Kzg._setup`: `assert(degree > 0)` (fatal `none` otherwise),
then the ladder `pp` of `degree + 1` G1 points and `alpha_G2 = G2.multiply(alpha)`. -/
def «_setup» (degree : Int) (alpha : F) : Option (List F × F) :=
  if 0 < degree then
    some (setupLoop (degree + 1).toNat 1 alpha, alpha * G2 F)
  else none

/-- Embedding of `Kzg.setup`: `assert(degree > 0)` and then `_setup` with a
randomly sampled `alpha`; the sampled scalar is made an explicit argument
because the embedding has no random source. -/
def setup (degree : Int) (alpha : F) : Option (List F × F) :=
  if 0 < degree then «_setup» degree alpha else none

/-- The accumulation loop of `Kzg.commit`: `com_f` starts at `G1_ZERO` and
each step adds `pp[i].multiply(f_coeffs[i])`.  The loop bound is `pp.length`
and it is only run under the assert `pp.length === f_coeffs.length`, so the
simultaneous structural recursion traverses exactly the source's indices. -/
def commitFold : List F → List F → F → F
  | p :: pps, c :: cs, com_f => commitFold pps cs (com_f + c * p)
  | _, _, com_f => com_f

/-- Embedding of `Kzg.commit`: `assert(pp.length === f_coeffs.length)` (fatal
`none` otherwise), then the multi-scalar accumulation. -/
def commit (pp : List F) (f_coeffs : List F) : Option F :=
  if pp.length = f_coeffs.length then
    some (commitFold pp f_coeffs (G1_ZERO F))
  else none

/-- The synthetic-division loop of `Kzg.prove`: with `carry` initialized to
`Kzg.ZERO = 0n`, for `i` from `f_coeffs.length - 1` down to `1` it sets
`carry = Fr.add(f_coeffs[i], Fr.mul(u, carry))` and `q_coeffs[i - 1] = carry`.
The loop reads the tail `f_coeffs[1..]` from its last element to its first, so
it is the structural recursion below applied to the tail: the innermost call
(empty list, carry `0`) is the state before the first iteration, and the head
of the returned list is the last assigned cell `q_coeffs[0]`.  The second
component is the final value of `carry`. -/
def synDivLoop : List F → F → List F × F
  | [], _ => ([], 0)
  | c :: rest, u =>
      let qc := synDivLoop rest u
      let carry := c + u * qc.2
      (carry :: qc.1, carry)

/-- Embedding of `Kzg.prove`: quotient coefficients by synthetic division
(`new Array(f_coeffs.length - 1)` throws a RangeError when `f_coeffs` is
empty, hence `none` there), then a commitment to the quotient over
`pp.slice(0, q_coeffs.length)`. -/
def prove (pp : List F) (f_coeffs : List F) (u : F) : Option F :=
  match f_coeffs with
  | [] => none
  | _ :: tail =>
      let q_coeffs := (synDivLoop tail u).1
      commit (pp.take q_coeffs.length) q_coeffs

/-- Embedding of `Kzg.verify`: the pairing comparison
`Fp12.eql(e(com_f - v*G1, G2), e(com_q, alpha_G2 - u*G2))` on discrete
logarithms. -/
def verify (com_f com_q u v alpha_G2 : F) : Bool :=
  let pairing2 := pairing com_q (alpha_G2 - u * G2 F)
  let pairing1 := pairing (com_f - v * G1 F) (G2 F)
  decide (pairing1 = pairing2)

end Kzg

namespace CheatingKzg

variable {F : Type} [Field F] [DecidableEq F]

/-- Embedding of `CheatingKzg.setup` (src/PolynomialCommitmentScheme/CheatingKzg.ts):
`assert(degree > 0)`, then `Kzg._setup`, but the sampled secret `alpha` is
also returned to the caller. -/
def setup (degree : Int) (alpha : F) : Option (List F × F × F) :=
  if 0 < degree then
    (Kzg.«_setup» degree alpha).map (fun s => (s.1, s.2, alpha))
  else none

/-- The evaluation loop of `CheatingKzg.prove`: `f_alpha` starts at `0n` and
`currentAlphaPow` at `1n`; each step adds `Fr.mul(f_coeffs[i], currentAlphaPow)`
to `f_alpha` and multiplies `currentAlphaPow` by `alpha`. -/
def evalLoop : List F → F → F → F → F
  | [], _, f_alpha, _ => f_alpha
  | c :: cs, alpha, f_alpha, currentAlphaPow =>
      evalLoop cs alpha (f_alpha + c * currentAlphaPow) (currentAlphaPow * alpha)

/-- Embedding of `CheatingKzg.prove`: evaluates `f(alpha)` with the leaked
secret, computes `qFake = Fr.div(f_alpha - vFake, alpha - u)` (the division
faults when `alpha - u = 0`, hence `none`), and returns
`G1.multiply(qFake)`.  The `pp` argument is received and ignored, as in the
source. -/
def prove (_pp : List F) (f_coeffs : List F) (u vFake alpha : F) : Option F :=
  let f_alpha := evalLoop f_coeffs alpha 0 1
  let numerator := f_alpha - vFake
  let denominator := alpha - u
  if denominator = 0 then none
  else some (numerator / denominator * Kzg.G1 F)

end CheatingKzg

namespace ZkKzg

variable {F : Type} [Field F] [DecidableEq F]

/-- The double power-ladder loop of `ZkKzg._setup` (the hiding variant): one
loop pushes `G1.multiply(currentAlpha)` onto `pp_G1` and
`H.multiply(currentAlpha)` onto `pp_H`, then multiplies `currentAlpha` by
`alpha`. -/
def setupLoop : Nat → F → F → F → List F × List F
  | 0, _, _, _ => ([], [])
  | n + 1, currentAlpha, alpha, H =>
      let rest := setupLoop n (currentAlpha * alpha) alpha H
      (currentAlpha * Kzg.G1 F :: rest.1, currentAlpha * H :: rest.2)

/-- Embedding of `ZkKzg._setup`: `assert(degree > 0)` (fatal `none`
otherwise), blinding base `H = G1.multiply(beta)`, the two parallel ladders,
and `alpha_G2 = G2.multiply(alpha)`. -/
def «_setup» (degree : Int) (alpha beta : F) :
    Option (List F × List F × F × F) :=
  if 0 < degree then
    let H := beta * Kzg.G1 F
    let ladders := setupLoop (degree + 1).toNat 1 alpha H
    some (ladders.1, ladders.2, alpha * Kzg.G2 F, H)
  else none

/-- Embedding of `ZkKzg.setup`: `assert(degree > 0)` and then `_setup` with
randomly sampled `alpha` and `beta`, made explicit arguments. -/
def setup (degree : Int) (alpha beta : F) : Option (List F × List F × F × F) :=
  if 0 < degree then «_setup» degree alpha beta else none

/-- The accumulation loop of `ZkKzg.commit`: bounded by `pp_G1.length`; each
step adds `pp_G1[i].multiply(f_coeffs[i])` and `pp_H[i].multiply(r_coeffs[i])`.
The loop runs under the asserts `pp_G1.length === f_coeffs.length` and
`pp_H.length === r_coeffs.length`, which do NOT force `pp_H` to be as long as
`pp_G1`: when `pp_G1` still has elements but `pp_H` is exhausted, the source
reads `pp_H[i] = undefined` and `undefined.multiply` throws a TypeError, which
the embedding renders as `none`. -/
def commitFold : List F → List F → List F → List F → F → Option F
  | [], _, _, _, com_f => some com_f
  | p :: pps, h :: hs, c :: cs, r :: rs, com_f =>
      commitFold pps hs cs rs (com_f + c * p + r * h)
  | _ :: _, _, _, _, _ => none

/-- Embedding of `ZkKzg.commit`: the two length asserts (fatal `none`
otherwise), then the combined accumulation starting from `G1_ZERO`. -/
def commit (pp_G1 pp_H f_coeffs r_coeffs : List F) : Option F :=
  if pp_G1.length = f_coeffs.length then
    if pp_H.length = r_coeffs.length then
      commitFold pp_G1 pp_H f_coeffs r_coeffs (Kzg.G1_ZERO F)
    else none
  else none

/-- Embedding of `ZkKzg.prove`: the same synthetic-division loop as
`Kzg.prove` (textually identical in the source), run once on `f_coeffs` and
once on `r_coeffs` (`new Array(length - 1)` throws when either vector is
empty), then a combined commitment over the two truncated ladders. -/
def prove (pp_G1 pp_H f_coeffs r_coeffs : List F) (u : F) : Option F :=
  match f_coeffs, r_coeffs with
  | _ :: ftail, _ :: rtail =>
      let q_f_coeffs := (Kzg.synDivLoop ftail u).1
      let q_r_coeffs := (Kzg.synDivLoop rtail u).1
      commit (pp_G1.take q_f_coeffs.length) (pp_H.take q_r_coeffs.length)
        q_f_coeffs q_r_coeffs
  | _, _ => none

end ZkKzg

namespace PolynomialCommitmentScheme

variable {F : Type} [Field F] [DecidableEq F]

/-- The power-ladder loop of `PolynomialCommitmentScheme.setup`
(src/PolynomialCommitmentScheme.ts): identical in shape to `Kzg.setupLoop`,
but the surrounding `setup` has NO degree assertion.  The scalar field here is
`galois.createPrimeField(bls12_381.fields.Fr.ORDER)`, i.e. the same prime
field `F`. -/
def setupLoop : Nat → F → F → List F
  | 0, _, _ => []
  | n + 1, currentAlpha, a =>
      currentAlpha * Kzg.G1 F :: setupLoop n (currentAlpha * a) a

/-- Embedding of `PolynomialCommitmentScheme.setup`: no precondition check at
all; the loop `for (i = 0; i < degree + 1; i++)` runs `max 0 (degree + 1)`
times, so the call returns normally for every degree, with an empty ladder for
`degree < 0` and the single-element ladder `[G1]` for `degree = 0`. -/
def setup (degree : Int) (a : F) : List F × F :=
  (setupLoop (degree + 1).toNat 1 a, a * Kzg.G2 F)

/-- The accumulation loop of `PolynomialCommitmentScheme.commit` (textually
identical to the loop of `Kzg.commit`). -/
def commitFold : List F → List F → F → F
  | p :: pps, c :: cs, com_f => commitFold pps cs (com_f + c * p)
  | _, _, com_f => com_f

/-- Embedding of `PolynomialCommitmentScheme.commit`:
`assert(pp.length === coefficients.length)`, then the accumulation from
`bls12_381.G1.Point.ZERO`. -/
def commit (pp : List F) (coefficients : List F) : Option F :=
  if pp.length = coefficients.length then
    some (commitFold pp coefficients 0)
  else none

/-- The synthetic-division loop of `PolynomialCommitmentScheme.prove`
(textually identical to the loop of `Kzg.prove`, with `this.field.zero` as the
initial carry). -/
def proveLoop : List F → F → List F × F
  | [], _ => ([], 0)
  | c :: rest, u =>
      let qc := proveLoop rest u
      let carry := c + u * qc.2
      (carry :: qc.1, carry)

/-- Embedding of `PolynomialCommitmentScheme.prove`: quotient by synthetic
division (`new Array(-1)` throws for an empty input), then a commitment over
`pp.slice(0, q_coefficients.length)`. -/
def prove (pp : List F) (f_coefficients : List F) (u : F) : Option F :=
  match f_coefficients with
  | [] => none
  | _ :: tail =>
      let q_coefficients := (proveLoop tail u).1
      commit (pp.take q_coefficients.length) q_coefficients

end PolynomialCommitmentScheme

section SpecBridge

variable {F : Type} [Field F] [DecidableEq F]

/-- The polynomial denoted by a coefficient list, index `i` being the
coefficient of `X ^ i` (the repository's representation of polynomials);
the bridge between coefficient lists and Mathlib polynomials used to state
and prove the algebraic identities. -/
noncomputable def listToPoly (l : List F) : Polynomial F :=
  l.foldr (fun c p => Polynomial.C c + Polynomial.X * p) 0

end SpecBridge

/-- The modulus 11 is prime; `ZMod 11` is the concrete prime field used to
instantiate the parametric theorems at explicit inputs. -/
instance : Fact (Nat.Prime 11) := ⟨by norm_num⟩

section BasicEval

variable {F : Type} [Field F] [DecidableEq F]

@[simp]
theorem evalPolyAt_nil (x : F) : evalPolyAt [] x = 0 := rfl

@[simp]
theorem evalPolyAt_cons (c : F) (l : List F) (x : F) :
    evalPolyAt (c :: l) x = evalPolyAt l x * x + c := rfl

end BasicEval

namespace Kzg

variable {F : Type} [Field F] [DecidableEq F]

@[simp]
theorem setupLoop_length (n : Nat) (c alpha : F) :
    (setupLoop n c alpha).length = n := by
  induction n generalizing c with
  | zero => rfl
  | succ k ih => simp [setupLoop, ih]

theorem setupLoop_getD (n : Nat) (c alpha : F) (i : Nat) (hi : i < n) :
    (setupLoop n c alpha).getD i 0 = c * alpha ^ i * G1 F := by
  induction n generalizing c i with
  | zero => omega
  | succ k ih =>
      cases i with
      | zero => simp [setupLoop]
      | succ j =>
          rw [setupLoop, List.getD_cons_succ, ih (c * alpha) j (by omega)]
          ring

theorem setupLoop_take (n k : Nat) (c alpha : F) :
    (setupLoop n c alpha).take k = setupLoop (min k n) c alpha := by
  induction n generalizing c k with
  | zero => simp [setupLoop]
  | succ m ih =>
      cases k with
      | zero => simp [setupLoop]
      | succ j => simp [setupLoop, ih, Nat.succ_min_succ]

theorem commitFold_setupLoop (f : List F) (c alpha acc : F) :
    commitFold (setupLoop f.length c alpha) f acc = acc + c * evalPolyAt f alpha := by
  induction f generalizing c acc with
  | nil => simp [setupLoop, commitFold]
  | cons a rest ih =>
      rw [List.length_cons, setupLoop, commitFold, ih]
      simp only [evalPolyAt_cons, G1]
      ring

@[simp]
theorem synDivLoop_length (l : List F) (u : F) :
    ((synDivLoop l u).1).length = l.length := by
  induction l with
  | nil => rfl
  | cons c rest ih => simp [synDivLoop, ih]

theorem synDivLoop_carry (l : List F) (u : F) :
    (synDivLoop l u).2 = evalPolyAt l u := by
  induction l with
  | nil => rfl
  | cons c rest ih => simp [synDivLoop, ih]; ring

theorem synDivLoop_eval (l : List F) (u x : F) :
    evalPolyAt (synDivLoop l u).1 x * (x - u) =
      x * evalPolyAt l x - u * evalPolyAt l u := by
  induction l with
  | nil => simp only [synDivLoop, evalPolyAt_nil]; ring
  | cons c rest ih =>
      simp only [synDivLoop, evalPolyAt_cons, synDivLoop_carry]
      linear_combination x * ih

/-- Under public parameters produced by `_setup`, a commitment to a coefficient
vector of matching length is the evaluation of the polynomial at the secret
scalar (in the exponent). -/
theorem commit_setup (degree : Int) (alpha : F) (pp : List F) (aG2 : F)
    (f : List F) (hs : «_setup» degree alpha = some (pp, aG2))
    (hlen : f.length = pp.length) :
    commit pp f = some (evalPolyAt f alpha) := by
  rw [«_setup»] at hs
  by_cases hd : 0 < degree
  · rw [if_pos hd] at hs
    obtain ⟨hpp, -⟩ : pp = setupLoop (degree + 1).toNat 1 alpha ∧
        aG2 = alpha * G2 F := by
      constructor <;> [exact (Prod.mk.injEq _ _ _ _ ▸ (Option.some.inj hs).symm).1;
        exact (Prod.mk.injEq _ _ _ _ ▸ (Option.some.inj hs).symm).2]
    subst hpp
    have hlen' : f.length = (degree + 1).toNat := by
      simpa using hlen
    rw [commit, if_pos (by simp [hlen'])]
    rw [← hlen', commitFold_setupLoop]
    simp [G1_ZERO]
  · rw [if_neg hd] at hs
    exact absurd hs (by simp)

/-- Under public parameters produced by `_setup`, the honest proof is the
evaluation of the synthetic-division quotient at the secret scalar (in the
exponent). -/
theorem prove_setup (degree : Int) (alpha : F) (pp : List F) (aG2 : F)
    (f : List F) (u : F) (hs : «_setup» degree alpha = some (pp, aG2))
    (hlen : f.length = pp.length) :
    prove pp f u = some (evalPolyAt (synDivLoop f.tail u).1 alpha) := by
  rw [«_setup»] at hs
  by_cases hd : 0 < degree
  · rw [if_pos hd] at hs
    obtain ⟨hpp, -⟩ : pp = setupLoop (degree + 1).toNat 1 alpha ∧
        aG2 = alpha * G2 F := by
      constructor <;> [exact (Prod.mk.injEq _ _ _ _ ▸ (Option.some.inj hs).symm).1;
        exact (Prod.mk.injEq _ _ _ _ ▸ (Option.some.inj hs).symm).2]
    subst hpp
    have hlen' : f.length = (degree + 1).toNat := by simpa using hlen
    have hpos : 1 ≤ f.length := by omega
    obtain ⟨c, tail, rfl⟩ : ∃ c tail, f = c :: tail := by
      cases f with
      | nil => simp at hpos
      | cons c tail => exact ⟨c, tail, rfl⟩
    rw [prove]
    have hq : ((synDivLoop tail u).1).length = tail.length := synDivLoop_length tail u
    rw [setupLoop_take, hq]
    have hmin : min tail.length (degree + 1).toNat = tail.length := by
      simp only [List.length_cons] at hlen'
      omega
    rw [hmin, commit, if_pos (by simp [hq]), ← hq, commitFold_setupLoop]
    simp [G1_ZERO, List.tail]
  · rw [if_neg hd] at hs
    exact absurd hs (by simp)

/-- The pairing check of `verify`, applied to the honest commitment and the
honest proof, reduces to the decidable comparison of the claimed value with
the true evaluation. -/
theorem verify_honest (degree : Int) (alpha : F) (pp : List F) (aG2 : F)
    (f : List F) (u v : F) (com_f com_q : F)
    (hs : «_setup» degree alpha = some (pp, aG2))
    (hlen : f.length = pp.length)
    (hcom : commit pp f = some com_f)
    (hprove : prove pp f u = some com_q) :
    verify com_f com_q u v aG2 = decide (v = evalPolyAt f u) := by
  have hd : 0 < degree := by
    by_contra hd
    rw [«_setup», if_neg hd] at hs
    exact absurd hs (by simp)
  have haG2 : aG2 = alpha * G2 F := by
    rw [«_setup», if_pos hd] at hs
    exact (Prod.mk.injEq _ _ _ _ ▸ (Option.some.inj hs).symm).2
  have hcf : com_f = evalPolyAt f alpha := by
    have := commit_setup degree alpha pp aG2 f hs hlen
    rw [hcom] at this
    exact Option.some.inj this
  have hcq : com_q = evalPolyAt (synDivLoop f.tail u).1 alpha := by
    have := prove_setup degree alpha pp aG2 f u hs hlen
    rw [hprove] at this
    exact Option.some.inj this
  have hpos : 1 ≤ f.length := by
    rw [«_setup», if_pos hd] at hs
    have hpp : pp = setupLoop (degree + 1).toNat 1 alpha :=
      (Prod.mk.injEq _ _ _ _ ▸ (Option.some.inj hs).symm).1
    rw [hpp] at hlen
    simp only [setupLoop_length] at hlen
    omega
  obtain ⟨c, tail, rfl⟩ : ∃ c tail, f = c :: tail := by
    cases f with
    | nil => simp at hpos
    | cons c tail => exact ⟨c, tail, rfl⟩
  subst hcf hcq haG2
  have hkey := synDivLoop_eval tail u alpha
  rw [verify]
  simp only [pairing, G1, G2, List.tail_cons, mul_one]
  rw [decide_eq_decide]
  constructor
  · intro h
    have : alpha * evalPolyAt tail alpha - u * evalPolyAt tail u =
        evalPolyAt (c :: tail) alpha - v := by
      rw [← hkey]
      exact h.symm
    simp only [evalPolyAt_cons] at this ⊢
    linear_combination this
  · intro h
    subst h
    simp only [evalPolyAt_cons]
    linear_combination -hkey

/-- Unfolding of a successful `_setup`: the degree was positive, the public
parameters are the power ladder, and the verification key is `alpha` times
the G2 generator. -/
theorem setup_parts (degree : Int) (alpha : F) (pp : List F) (aG2 : F)
    (hs : «_setup» degree alpha = some (pp, aG2)) :
    0 < degree ∧ pp = setupLoop (degree + 1).toNat 1 alpha ∧
      aG2 = alpha * G2 F := by
  by_cases hd : 0 < degree
  · rw [«_setup», if_pos hd] at hs
    exact ⟨hd, (Prod.mk.injEq _ _ _ _ ▸ (Option.some.inj hs).symm).1,
      (Prod.mk.injEq _ _ _ _ ▸ (Option.some.inj hs).symm).2⟩
  · rw [«_setup», if_neg hd] at hs
    exact absurd hs (by simp)

end Kzg

namespace CheatingKzg

variable {F : Type} [Field F] [DecidableEq F]

theorem evalLoop_eq (l : List F) (alpha acc pow : F) :
    evalLoop l alpha acc pow = acc + pow * evalPolyAt l alpha := by
  induction l generalizing acc pow with
  | nil => simp [evalLoop]
  | cons c cs ih =>
      rw [evalLoop, ih]
      simp only [evalPolyAt_cons]
      ring

end CheatingKzg

namespace ZkKzg

variable {F : Type} [Field F] [DecidableEq F]

theorem setupLoop_fst (n : Nat) (c alpha H : F) :
    (setupLoop n c alpha H).1 = Kzg.setupLoop n c alpha := by
  induction n generalizing c with
  | zero => rfl
  | succ k ih => simp [setupLoop, Kzg.setupLoop, ih]

@[simp]
theorem setupLoop_snd_length (n : Nat) (c alpha H : F) :
    (setupLoop n c alpha H).2.length = n := by
  induction n generalizing c with
  | zero => rfl
  | succ k ih => simp [setupLoop, ih]

theorem setupLoop_snd_getD (n : Nat) (c alpha H : F) (i : Nat) (hi : i < n) :
    (setupLoop n c alpha H).2.getD i 0 = c * alpha ^ i * H := by
  induction n generalizing c i with
  | zero => omega
  | succ k ih =>
      cases i with
      | zero => simp [setupLoop]
      | succ j =>
          rw [setupLoop]
          simp only
          rw [List.getD_cons_succ, ih (c * alpha) j (by omega)]
          ring

/-- Unfolding of a successful `ZkKzg._setup`. -/
theorem setup_parts_zk (degree : Int) (alpha beta : F)
    (pg ph : List F) (aG2 H : F)
    (hz : «_setup» degree alpha beta = some (pg, ph, aG2, H)) :
    0 < degree ∧
      pg = (setupLoop (degree + 1).toNat 1 alpha (beta * Kzg.G1 F)).1 ∧
      ph = (setupLoop (degree + 1).toNat 1 alpha (beta * Kzg.G1 F)).2 ∧
      aG2 = alpha * Kzg.G2 F ∧ H = beta * Kzg.G1 F := by
  by_cases hd : 0 < degree
  · rw [«_setup», if_pos hd] at hz
    simp only at hz
    have h := Option.some.inj hz
    simp only [Prod.mk.injEq] at h
    exact ⟨hd, h.1.symm, h.2.1.symm, h.2.2.1.symm, h.2.2.2.symm⟩
  · rw [«_setup», if_neg hd] at hz
    exact absurd hz (by simp)

theorem commitFold_isSome (a b c d : List F) (acc : F)
    (hb : a.length ≤ b.length) (hc : a.length ≤ c.length)
    (hd : a.length ≤ d.length) :
    ∃ r, commitFold a b c d acc = some r := by
  induction a generalizing b c d acc with
  | nil => exact ⟨acc, rfl⟩
  | cons p ps ih =>
      match b, c, d with
      | [], _, _ => simp at hb
      | _ :: _, [], _ => simp at hc
      | _ :: _, _ :: _, [] => simp at hd
      | bh :: bs, ch :: cs, dh :: ds =>
          simp only [List.length_cons, Nat.add_le_add_iff_right] at hb hc hd
          exact ih bs cs ds _ hb hc hd

end ZkKzg

namespace PolynomialCommitmentScheme

variable {F : Type} [Field F] [DecidableEq F]

@[simp]
theorem setupLoop_length_pcs (n : Nat) (c a : F) :
    (setupLoop n c a).length = n := by
  induction n generalizing c with
  | zero => rfl
  | succ k ih => simp [setupLoop, ih]

theorem commitFold_eq (pp f : List F) (acc : F) :
    commitFold pp f acc = Kzg.commitFold pp f acc := by
  induction pp generalizing f acc with
  | nil => cases f <;> rfl
  | cons p pps ih =>
      cases f with
      | nil => rfl
      | cons c cs => rw [commitFold, Kzg.commitFold, ih]

theorem proveLoop_eq (l : List F) (u : F) : proveLoop l u = Kzg.synDivLoop l u := by
  induction l with
  | nil => rfl
  | cons c rest ih => simp [proveLoop, Kzg.synDivLoop, ih]

end PolynomialCommitmentScheme

section ListPolynomial

open Polynomial

variable {F : Type} [Field F] [DecidableEq F]

@[simp]
theorem listToPoly_nil : listToPoly ([] : List F) = 0 := rfl

@[simp]
theorem listToPoly_cons (c : F) (l : List F) :
    listToPoly (c :: l) = Polynomial.C c + Polynomial.X * listToPoly l := rfl

theorem coeff_listToPoly (l : List F) (k : Nat) :
    (listToPoly l).coeff k = l.getD k 0 := by
  induction l generalizing k with
  | nil => simp
  | cons c t ih =>
      cases k with
      | zero => simp [Polynomial.mul_coeff_zero]
      | succ j => simp [Polynomial.coeff_X_mul, ih]

theorem eval_listToPoly (l : List F) (x : F) :
    (listToPoly l).eval x = evalPolyAt l x := by
  induction l with
  | nil => simp
  | cons c t ih =>
      simp only [listToPoly_cons, Polynomial.eval_add, Polynomial.eval_C,
        Polynomial.eval_mul, Polynomial.eval_X, ih, evalPolyAt_cons]
      ring

theorem natDegree_listToPoly_le (l : List F) :
    (listToPoly l).natDegree ≤ l.length - 1 := by
  rw [Polynomial.natDegree_le_iff_coeff_eq_zero]
  intro N hN
  rw [coeff_listToPoly]
  exact List.getD_eq_default _ _ (by omega)

theorem listToPoly_inj (l1 l2 : List F) (hlen : l1.length = l2.length)
    (h : listToPoly l1 = listToPoly l2) : l1 = l2 := by
  apply List.ext_getElem hlen
  intro i h1 h2
  have hc := congrArg (fun p => Polynomial.coeff p i) h
  simp only [coeff_listToPoly] at hc
  rwa [List.getD_eq_getElem l1 _ h1, List.getD_eq_getElem l2 _ h2] at hc

@[simp]
theorem addPoly_length (a b : List F) :
    (addPoly a b).length = max a.length b.length := by
  simp [addPoly]

theorem addPoly_getD (a b : List F) (k : Nat) :
    (addPoly a b).getD k 0 = a.getD k 0 + b.getD k 0 := by
  by_cases hk : k < max a.length b.length
  · rw [addPoly, List.getD_eq_getElem _ _ (by simpa using hk)]
    simp
  · push_neg at hk
    rw [List.getD_eq_default _ _ (by simpa using hk),
      List.getD_eq_default _ _ (le_trans (le_max_left _ _) hk),
      List.getD_eq_default _ _ (le_trans (le_max_right _ _) hk)]
    ring

theorem listToPoly_addPoly (a b : List F) :
    listToPoly (addPoly a b) = listToPoly a + listToPoly b := by
  ext k
  simp only [coeff_listToPoly, Polynomial.coeff_add, addPoly_getD]

theorem getD_set (l : List F) (m k : Nat) (x : F) :
    (l.set m x).getD k 0 = if m = k ∧ m < l.length then x else l.getD k 0 := by
  rw [List.getD_eq_getElem?_getD, List.getD_eq_getElem?_getD, List.getElem?_set]
  by_cases h1 : m = k
  · subst h1
    by_cases h2 : m < l.length
    · simp [h2]
    · simp only [if_pos rfl, if_neg h2, Option.getD_none]
      rw [← List.getD_eq_getElem?_getD, List.getD_eq_default _ _ (by omega)]
      simp [h2]
  · simp [h1]

theorem getD_replicate (n k : Nat) :
    (List.replicate n (0 : F)).getD k 0 = 0 := by
  rw [List.getD_eq_getElem?_getD, List.getElem?_replicate]
  split <;> rfl

theorem mulPolyInner_foldl_length (i : Nat) (ai : F) (b : List F) (j0 : Nat)
    (res : List F) :
    ((List.enumFrom j0 b).foldl (mulPolyInner i ai) res).length = res.length := by
  induction b generalizing j0 res with
  | nil => rfl
  | cons c cs ih =>
      rw [List.enumFrom_cons, List.foldl_cons, ih]
      simp [mulPolyInner]

theorem mulPolyInner_foldl_getD (i : Nat) (ai : F) (b : List F) (j0 : Nat)
    (res : List F) (k : Nat) :
    ((List.enumFrom j0 b).foldl (mulPolyInner i ai) res).getD k 0 =
      res.getD k 0 +
        (if i + j0 ≤ k ∧ k < i + j0 + b.length ∧ k < res.length
         then ai * b.getD (k - (i + j0)) 0 else 0) := by
  induction b generalizing j0 res with
  | nil =>
      simp only [List.enumFrom_nil, List.foldl_nil, List.length_nil]
      rw [if_neg (by omega), add_zero]
  | cons c cs ih =>
      simp only [List.length_cons]
      rw [List.enumFrom_cons, List.foldl_cons, ih]
      have happ : mulPolyInner i ai res (j0, c) =
          res.set (i + j0) (res.getD (i + j0) 0 + ai * c) := rfl
      rw [happ, List.length_set, getD_set]
      by_cases h1 : i + j0 = k ∧ i + j0 < res.length
      · rw [if_pos h1, if_neg (by omega), if_pos (by omega), add_zero]
        obtain ⟨hk, -⟩ := h1
        have h0 : k - (i + j0) = 0 := by omega
        rw [h0, hk]
        simp
      · rw [if_neg h1]
        by_cases h2 : i + j0 ≤ k ∧ k < i + j0 + (cs.length + 1) ∧ k < res.length
        · rw [if_pos h2, if_pos (by omega)]
          have hstep : k - (i + j0) = (k - (i + (j0 + 1))) + 1 := by omega
          rw [hstep, List.getD_cons_succ]
        · rw [if_neg h2, if_neg (by omega)]

theorem mulPolyOuter_foldl_length (bs a : List F) (i0 : Nat) (res : List F) :
    ((List.enumFrom i0 a).foldl
        (fun res ia => (List.enum bs).foldl (mulPolyInner ia.1 ia.2) res)
        res).length = res.length := by
  induction a generalizing i0 res with
  | nil => rfl
  | cons a0 as ih =>
      rw [List.enumFrom_cons, List.foldl_cons, ih]
      have hred : (List.enum bs).foldl (mulPolyInner (i0, a0).1 (i0, a0).2) res =
          (List.enumFrom 0 bs).foldl (mulPolyInner i0 a0) res := rfl
      rw [hred, mulPolyInner_foldl_length]

theorem mulPolyOuter_foldl_getD (bs a : List F) (i0 : Nat) (res : List F)
    (k : Nat) :
    ((List.enumFrom i0 a).foldl
        (fun res ia => (List.enum bs).foldl (mulPolyInner ia.1 ia.2) res)
        res).getD k 0 =
      res.getD k 0 + ∑ t ∈ Finset.range a.length,
        (if i0 + t ≤ k ∧ k < i0 + t + bs.length ∧ k < res.length
         then a.getD t 0 * bs.getD (k - (i0 + t)) 0 else 0) := by
  induction a generalizing i0 res with
  | nil => simp
  | cons a0 as ih =>
      rw [List.enumFrom_cons, List.foldl_cons, ih]
      have hred : (List.enum bs).foldl (mulPolyInner (i0, a0).1 (i0, a0).2) res =
          (List.enumFrom 0 bs).foldl (mulPolyInner i0 a0) res := rfl
      rw [hred, mulPolyInner_foldl_length, mulPolyInner_foldl_getD]
      rw [List.length_cons, Finset.sum_range_succ']
      simp only [List.getD_cons_succ, List.getD_cons_zero, Nat.add_zero]
      have hsum : ∑ t ∈ Finset.range as.length,
          (if i0 + 1 + t ≤ k ∧ k < i0 + 1 + t + bs.length ∧ k < res.length
           then as.getD t 0 * bs.getD (k - (i0 + 1 + t)) 0 else 0)
          = ∑ t ∈ Finset.range as.length,
          (if i0 + (t + 1) ≤ k ∧ k < i0 + (t + 1) + bs.length ∧ k < res.length
           then as.getD t 0 * bs.getD (k - (i0 + (t + 1))) 0 else 0) := by
        apply Finset.sum_congr rfl
        intro t ht
        have he : i0 + 1 + t = i0 + (t + 1) := by omega
        rw [he]
      rw [hsum]
      ring

theorem mulPoly_length (a b : List F) :
    (mulPoly a b).length = a.length + b.length - 1 := by
  rw [mulPoly, show a.enum = List.enumFrom 0 a from rfl,
    mulPolyOuter_foldl_length, List.length_replicate]

theorem mulPoly_getD (a b : List F) (k : Nat) :
    (mulPoly a b).getD k 0 =
      ∑ t ∈ Finset.range a.length,
        (if t ≤ k ∧ k - t < b.length then a.getD t 0 * b.getD (k - t) 0 else 0) := by
  rw [mulPoly, show a.enum = List.enumFrom 0 a from rfl, mulPolyOuter_foldl_getD,
    getD_replicate, List.length_replicate, zero_add]
  apply Finset.sum_congr rfl
  intro t ht
  simp only [Finset.mem_range] at ht
  by_cases hc : t ≤ k ∧ k - t < b.length
  · rw [if_pos hc, if_pos (by omega)]
    have h0 : k - (0 + t) = k - t := by omega
    rw [h0]
  · rw [if_neg hc, if_neg (by omega)]

theorem listToPoly_mulPoly (a b : List F) :
    listToPoly (mulPoly a b) = listToPoly a * listToPoly b := by
  ext k
  rw [coeff_listToPoly, mulPoly_getD, Polynomial.coeff_mul,
    Finset.Nat.sum_antidiagonal_eq_sum_range_succ_mk]
  simp only [coeff_listToPoly]
  have h1 : ∑ t ∈ Finset.range a.length,
      (if t ≤ k ∧ k - t < b.length then a.getD t 0 * b.getD (k - t) 0 else 0)
      = ∑ t ∈ Finset.range (max (k + 1) a.length),
      (if t < a.length ∧ t ≤ k ∧ k - t < b.length
       then a.getD t 0 * b.getD (k - t) 0 else 0) := by
    rw [Finset.sum_congr rfl (g :=
      fun t => if t < a.length ∧ t ≤ k ∧ k - t < b.length
        then a.getD t 0 * b.getD (k - t) 0 else 0)]
    · exact Finset.sum_subset
        (Finset.range_subset.mpr (le_max_right (k + 1) a.length))
        (fun x _ hnx => by
          simp only [Finset.mem_range] at hnx
          rw [if_neg (by omega)])
    · intro t ht
      simp only [Finset.mem_range] at ht
      by_cases hc : t ≤ k ∧ k - t < b.length
      · rw [if_pos hc, if_pos ⟨ht, hc.1, hc.2⟩]
      · rw [if_neg hc, if_neg (by omega)]
  have h2 : ∑ t ∈ Finset.range (k + 1), a.getD t 0 * b.getD (k - t) 0
      = ∑ t ∈ Finset.range (max (k + 1) a.length),
      (if t < a.length ∧ t ≤ k ∧ k - t < b.length
       then a.getD t 0 * b.getD (k - t) 0 else 0) := by
    rw [Finset.sum_congr rfl (g :=
      fun t => if t < a.length ∧ t ≤ k ∧ k - t < b.length
        then a.getD t 0 * b.getD (k - t) 0 else 0)]
    · exact Finset.sum_subset
        (Finset.range_subset.mpr (le_max_left (k + 1) a.length))
        (fun x _ hnx => by
          simp only [Finset.mem_range] at hnx
          rw [if_neg (by omega)])
    · intro t ht
      simp only [Finset.mem_range] at ht
      by_cases hc : t < a.length ∧ t ≤ k ∧ k - t < b.length
      · rw [if_pos hc]
      · rw [if_neg hc]
        rcases Decidable.not_and_iff_or_not.mp hc with hna | hrest
        · rw [List.getD_eq_default _ _ (by omega), zero_mul]
        · rcases Decidable.not_and_iff_or_not.mp hrest with hnk | hnb
          · omega
          · rw [List.getD_eq_default b _ (by omega), mul_zero]
  rw [h1, h2]

theorem listToPoly_replicate_zero (m : Nat) :
    listToPoly (List.replicate m (0 : F)) = 0 := by
  induction m with
  | zero => rfl
  | succ k ih => simp [List.replicate_succ, ih]

theorem listToPoly_append_replicate_zero (l : List F) (m : Nat) :
    listToPoly (l ++ List.replicate m 0) = listToPoly l := by
  induction l with
  | nil => simpa using listToPoly_replicate_zero m
  | cons c t ih => simp [ih]

/-- The trailing-zero cleanup pops exactly a (possibly empty) run of zeros
from the end of the list. -/
theorem trimTrailingZeros_spec (l : List F) :
    ∃ m, l = trimTrailingZeros l ++ List.replicate m 0 := by
  refine ⟨(List.takeWhile (fun c => decide (c = 0)) l.reverse).length, ?_⟩
  have hT : (List.takeWhile (fun c => decide (c = 0)) l.reverse).reverse =
      List.replicate
        (List.takeWhile (fun c => decide (c = 0)) l.reverse).length (0 : F) := by
    rw [← List.reverse_replicate]
    congr 1
    exact List.eq_replicate_of_mem
      (fun b hb => by simpa using List.mem_takeWhile_imp hb)
  conv_lhs => rw [← List.reverse_reverse l,
    ← List.takeWhile_append_dropWhile (fun c => decide (c = 0)) l.reverse,
    List.reverse_append, hT]
  simp only [trimTrailingZeros]

theorem listToPoly_trimTrailingZeros (l : List F) :
    listToPoly (trimTrailingZeros l) = listToPoly l := by
  obtain ⟨m, hm⟩ := trimTrailingZeros_spec l
  conv_rhs => rw [hm]
  rw [listToPoly_append_replicate_zero]

theorem trimTrailingZeros_getLast (l : List F) (h : trimTrailingZeros l ≠ []) :
    (trimTrailingZeros l).getLast h ≠ 0 := by
  simp only [trimTrailingZeros] at h ⊢
  rw [List.getLast_reverse]
  intro hzero
  have := List.head_dropWhile_not (fun c => decide (c = 0)) l.reverse
    (by simpa using h)
  rw [hzero] at this
  simp at this

theorem length_le_of_listToPoly_eq (l1 l2 : List F) (h1 : l1 ≠ [])
    (hl1 : l1.getLast h1 ≠ 0) (h : listToPoly l1 = listToPoly l2) :
    l1.length ≤ l2.length := by
  by_contra hlt
  push_neg at hlt
  apply hl1
  have hpos : 0 < l1.length := List.length_pos.mpr h1
  rw [List.getLast_eq_getElem, ← List.getD_eq_getElem l1 0 (by omega)]
  have hc := congrArg (fun p => Polynomial.coeff p (l1.length - 1)) h
  simp only [coeff_listToPoly] at hc
  rw [hc, List.getD_eq_default _ _ (by omega)]

/-- Two coefficient lists with no trailing zero denote the same polynomial
only if they are equal. -/
theorem eq_of_listToPoly_eq_of_getLast (l1 l2 : List F) (h1 : l1 ≠ [])
    (h2 : l2 ≠ []) (hl1 : l1.getLast h1 ≠ 0) (hl2 : l2.getLast h2 ≠ 0)
    (h : listToPoly l1 = listToPoly l2) : l1 = l2 :=
  listToPoly_inj _ _
    (le_antisymm (length_le_of_listToPoly_eq l1 l2 h1 hl1 h)
      (length_le_of_listToPoly_eq l2 l1 h2 hl2 h.symm)) h

/-- Polynomial-level synthetic-division identity for the loop of `Kzg.prove`:
for the tail `l` of the coefficient vector, the quotient list `q` built by the
loop satisfies `q(X) · (X - u) = X · l(X) - u · l(u)`. -/
theorem synDivLoop_poly (l : List F) (u : F) :
    listToPoly (Kzg.synDivLoop l u).1 * (Polynomial.X - Polynomial.C u) =
      Polynomial.X * listToPoly l - Polynomial.C (u * evalPolyAt l u) := by
  induction l with
  | nil =>
      simp only [Kzg.synDivLoop, listToPoly_nil, evalPolyAt_nil, mul_zero,
        zero_mul, map_zero, sub_zero]
  | cons c rest ih =>
      simp only [Kzg.synDivLoop, listToPoly_cons, Kzg.synDivLoop_carry,
        evalPolyAt_cons, map_add, map_mul]
      have ih2 := ih
      rw [map_mul] at ih2
      linear_combination Polynomial.X * ih2

/-- Characterization of the inner loop of `lagrangeInterpolation`: the pass
over the entries `jp` with `jp.1 ≠ i` multiplies the basis polynomial by each
linear factor `X - x_j` and the denominator by each difference `xi - x_j`. -/
theorem lagrangeBasisStep_foldl (i : Nat) (xi : F) (pl : List (Nat × (F × F)))
    (bd : List F × F) :
    listToPoly (pl.foldl (lagrangeBasisStep i xi) bd).1 =
      listToPoly bd.1 *
        ((pl.filter (fun jp => decide (i ≠ jp.1))).map
          (fun jp => Polynomial.X - Polynomial.C jp.2.1)).prod ∧
    (pl.foldl (lagrangeBasisStep i xi) bd).2 =
      bd.2 * ((pl.filter (fun jp => decide (i ≠ jp.1))).map
          (fun jp => xi - jp.2.1)).prod := by
  induction pl generalizing bd with
  | nil => simp
  | cons jp pls ih =>
      rw [List.foldl_cons]
      by_cases hij : i ≠ jp.1
      · have hstep : lagrangeBasisStep i xi bd jp =
            (mulPoly bd.1 [-jp.2.1, 1], bd.2 * (xi - jp.2.1)) := by
          rw [lagrangeBasisStep, if_pos hij]
        rw [hstep, List.filter_cons_of_pos (by simpa using hij), List.map_cons,
          List.prod_cons, List.map_cons, List.prod_cons]
        obtain ⟨ih1, ih2⟩ := ih (mulPoly bd.1 [-jp.2.1, 1], bd.2 * (xi - jp.2.1))
        have hlin : listToPoly [-jp.2.1, (1 : F)] =
            Polynomial.X - Polynomial.C jp.2.1 := by
          simp only [listToPoly_cons, listToPoly_nil, mul_zero, add_zero,
            map_one, map_neg, mul_one]
          ring
        constructor
        · rw [ih1]
          simp only [listToPoly_mulPoly, hlin]
          ring
        · rw [ih2]
          ring
      · have hstep : lagrangeBasisStep i xi bd jp = bd := by
          rw [lagrangeBasisStep, if_neg hij]
        rw [hstep, List.filter_cons_of_neg (by simpa using hij)]
        exact ih bd

/-- Characterization of the outer loop of `lagrangeInterpolation`: the result
denotes the running polynomial plus the sum of the per-point terms
`(y_i / denominator_i) · basis_i`. -/
theorem lagrangeStep_foldl (points : List (F × F)) (pl : List (Nat × (F × F)))
    (res : List F) :
    listToPoly (pl.foldl (lagrangeStep points) res) =
      listToPoly res +
        (pl.map (fun ip =>
          Polynomial.C (ip.2.2 *
              (points.enum.foldl (lagrangeBasisStep ip.1 ip.2.1) ([1], 1)).2⁻¹) *
            listToPoly
              (points.enum.foldl (lagrangeBasisStep ip.1 ip.2.1) ([1], 1)).1)).sum := by
  induction pl generalizing res with
  | nil => simp
  | cons ip pls ih =>
      rw [List.foldl_cons, ih]
      have hstep : lagrangeStep points res ip =
          addPoly res (mulPoly
            (points.enum.foldl (lagrangeBasisStep ip.1 ip.2.1) ([1], 1)).1
            [ip.2.2 *
              (points.enum.foldl (lagrangeBasisStep ip.1 ip.2.1) ([1], 1)).2⁻¹]) :=
        rfl
      rw [hstep, listToPoly_addPoly, listToPoly_mulPoly]
      have hsingle : ∀ y : F,
          listToPoly [y] = Polynomial.C y := fun y => by simp
      rw [hsingle, List.map_cons, List.sum_cons]
      ring

/-- Evaluating a product of the linear factors `X - x_j` is the product of
the evaluated differences. -/
theorem eval_prod_linear (L : List (Nat × (F × F))) (v : F) :
    Polynomial.eval v ((L.map (fun jp => Polynomial.X - Polynomial.C jp.2.1)).prod)
      = (L.map (fun jp => v - jp.2.1)).prod := by
  rw [show (Polynomial.eval v :
      Polynomial F → F) = ⇑(Polynomial.evalRingHom v) from rfl]
  rw [map_list_prod (Polynomial.evalRingHom v), List.map_map]
  apply congrArg
  apply List.map_congr_left
  intro jp _
  simp

theorem enum_eq_ofFn {α : Type} (l : List α) :
    l.enum = List.ofFn (fun t : Fin l.length => (t.1, l.get t)) := by
  apply List.ext_getElem (by simp)
  intro i h1 h2
  simp [List.getElem_enum, List.getElem_ofFn]

theorem sum_map_enum {α M : Type} [AddCommMonoid M] (l : List α)
    (g : Nat × α → M) :
    (l.enum.map g).sum = ∑ t : Fin l.length, g (t.1, l.get t) := by
  rw [enum_eq_ofFn, List.map_ofFn, List.sum_ofFn]
  rfl

theorem natDegree_prod_linear_le (L : List (Nat × (F × F))) :
    ((L.map (fun jp : Nat × (F × F) =>
      Polynomial.X - Polynomial.C jp.2.1)).prod).natDegree ≤ L.length := by
  refine le_trans (Polynomial.natDegree_list_prod_le _) ?_
  rw [List.map_map]
  have hone : ∀ jp ∈ L,
      (Polynomial.natDegree ∘ fun jp : Nat × (F × F) =>
        Polynomial.X - Polynomial.C jp.2.1) jp = 1 := fun jp _ => by
    simp [Polynomial.natDegree_X_sub_C]
  rw [List.map_congr_left hone]
  simp [List.map_const', List.sum_replicate]

theorem filter_ne_length_lt {α : Type} (l : List α) (t : Fin l.length) :
    ((l.enum).filter (fun jp => decide (t.1 ≠ jp.1))).length < l.length := by
  have h := List.length_filter_lt_length_iff_exists
    (l := l.enum) (p := fun jp => decide (t.1 ≠ jp.1))
  rw [List.enum_length] at h
  apply h.mpr
  refine ⟨(t.1, l.get t), ?_, by simp⟩
  rw [enum_eq_ofFn]
  exact (List.mem_ofFn _ _).mpr ⟨t, rfl⟩

/-- The interpolant built by the loops of `lagrangeInterpolation` passes
through every input point, provided the sample points are pairwise
distinct. -/
theorem lagrange_poly_eval (points : List (F × F))
    (hx : ∀ s t : Fin points.length, s ≠ t →
      (points.get s).1 ≠ (points.get t).1)
    (k : Fin points.length) :
    Polynomial.eval ((points.get k).1)
      (listToPoly (points.enum.foldl (lagrangeStep points) [0])) =
      (points.get k).2 := by
  classical
  have hB : ∀ t : Fin points.length,
      listToPoly ((points.enum.foldl
          (lagrangeBasisStep t.1 (points.get t).1) ([1], 1)).1) =
        ((points.enum.filter (fun jp => decide (t.1 ≠ jp.1))).map
          (fun jp => Polynomial.X - Polynomial.C jp.2.1)).prod := by
    intro t
    rw [(lagrangeBasisStep_foldl t.1 (points.get t).1 points.enum ([1], 1)).1]
    have h1 : listToPoly ([1] : List F) = 1 := by simp
    rw [h1, one_mul]
  have hD : ∀ t : Fin points.length,
      (points.enum.foldl (lagrangeBasisStep t.1 (points.get t).1) ([1], 1)).2 =
        ((points.enum.filter (fun jp => decide (t.1 ≠ jp.1))).map
          (fun jp => (points.get t).1 - jp.2.1)).prod := by
    intro t
    rw [(lagrangeBasisStep_foldl t.1 (points.get t).1 points.enum ([1], 1)).2]
    rw [one_mul]
  have hfilter_elem : ∀ (t : Fin points.length) (jp : Nat × (F × F)),
      jp ∈ points.enum.filter (fun jp => decide (t.1 ≠ jp.1)) →
      ∃ s : Fin points.length, s ≠ t ∧ jp = (s.1, points.get s) := by
    intro t jp hjp
    obtain ⟨hmem, hpred⟩ := List.mem_filter.mp hjp
    rw [enum_eq_ofFn] at hmem
    obtain ⟨s, hs⟩ := (List.mem_ofFn _ _).mp hmem
    refine ⟨s, ?_, hs.symm⟩
    intro hst
    subst hst
    rw [← hs] at hpred
    simp at hpred
  have hmem_filter : ∀ (t s : Fin points.length), s ≠ t →
      (s.1, points.get s) ∈
        points.enum.filter (fun jp => decide (t.1 ≠ jp.1)) := by
    intro t s hst
    apply List.mem_filter.mpr
    refine ⟨?_, ?_⟩
    · rw [enum_eq_ofFn]
      exact (List.mem_ofFn _ _).mpr ⟨s, rfl⟩
    · simp only [decide_eq_true_eq]
      intro h
      exact hst (Fin.ext h.symm)
  have hD0 : ∀ t : Fin points.length,
      (points.enum.foldl (lagrangeBasisStep t.1 (points.get t).1) ([1], 1)).2
        ≠ 0 := by
    intro t
    rw [hD]
    apply List.prod_ne_zero
    intro h0
    obtain ⟨jp, hjp, hval⟩ := List.mem_map.mp h0
    obtain ⟨s, hst, rfl⟩ := hfilter_elem t jp hjp
    exact hx s t hst (sub_eq_zero.mp hval).symm
  have hBevalD : ∀ t : Fin points.length,
      Polynomial.eval ((points.get t).1)
        (listToPoly ((points.enum.foldl
          (lagrangeBasisStep t.1 (points.get t).1) ([1], 1)).1)) =
      (points.enum.foldl (lagrangeBasisStep t.1 (points.get t).1) ([1], 1)).2 := by
    intro t
    rw [hB, eval_prod_linear, hD]
  have hBeval0 : ∀ t : Fin points.length, t ≠ k →
      Polynomial.eval ((points.get k).1)
        (listToPoly ((points.enum.foldl
          (lagrangeBasisStep t.1 (points.get t).1) ([1], 1)).1)) = 0 := by
    intro t htk
    rw [hB, eval_prod_linear]
    apply List.prod_eq_zero
    apply List.mem_map.mpr
    exact ⟨(k.1, points.get k), hmem_filter t k (Ne.symm htk), by simp⟩
  rw [lagrangeStep_foldl]
  have h0 : listToPoly ([0] : List F) = 0 := by simp
  rw [h0, zero_add, sum_map_enum]
  rw [Polynomial.eval_finset_sum]
  rw [Finset.sum_eq_single_of_mem k (Finset.mem_univ k) ?_]
  · simp only [Polynomial.eval_mul, Polynomial.eval_C]
    rw [hBevalD k]
    rw [mul_assoc, inv_mul_cancel₀ (hD0 k), mul_one]
  · intro t _ htk
    simp only [Polynomial.eval_mul, Polynomial.eval_C]
    rw [hBeval0 t htk, mul_zero]

/-- The interpolant built by the loops of `lagrangeInterpolation` has degree
at most `points.length - 1`. -/
theorem lagrange_poly_natDegree (points : List (F × F)) :
    (listToPoly (points.enum.foldl (lagrangeStep points) [0])).natDegree ≤
      points.length - 1 := by
  classical
  rw [lagrangeStep_foldl]
  have h0 : listToPoly ([0] : List F) = 0 := by simp
  rw [h0, zero_add, sum_map_enum]
  apply Polynomial.natDegree_sum_le_of_forall_le
  intro t _
  refine le_trans Polynomial.natDegree_mul_le ?_
  rw [Polynomial.natDegree_C, zero_add]
  rw [(lagrangeBasisStep_foldl t.1 (points.get t).1 points.enum ([1], 1)).1]
  have h1 : listToPoly ([1] : List F) = 1 := by simp
  rw [h1, one_mul]
  refine le_trans (natDegree_prod_linear_le _) ?_
  have := filter_ne_length_lt points t
  omega

end ListPolynomial

/-- C1 — Completeness: for every coefficient vector matching the
public-parameter ladder produced by `_setup` and every evaluation point `u`,
committing, proving and verifying with the direct evaluation
`v = evalPolyAt f_coeffs u` succeeds and `verify` returns `true`. -/
theorem kzg_completeness {F : Type} [Field F] [DecidableEq F]
    (degree : Int) (alpha : F) (f_coeffs pp : List F) (alpha_G2 u : F)
    (hsetup : Kzg.«_setup» degree alpha = some (pp, alpha_G2))
    (hlen : f_coeffs.length = pp.length) :
    ∃ com_f com_q,
      Kzg.commit pp f_coeffs = some com_f ∧
      Kzg.prove pp f_coeffs u = some com_q ∧
      Kzg.verify com_f com_q u (evalPolyAt f_coeffs u) alpha_G2 = true := by
  refine ⟨_, _, Kzg.commit_setup degree alpha pp alpha_G2 f_coeffs hsetup hlen,
    Kzg.prove_setup degree alpha pp alpha_G2 f_coeffs u hsetup hlen, ?_⟩
  rw [Kzg.verify_honest degree alpha pp alpha_G2 f_coeffs u _ _ _ hsetup hlen
    (Kzg.commit_setup degree alpha pp alpha_G2 f_coeffs hsetup hlen)
    (Kzg.prove_setup degree alpha pp alpha_G2 f_coeffs u hsetup hlen)]
  simp

theorem kzg_completeness_witness :
    Kzg.«_setup» (1 : Int) (2 : ZMod 11) = some ([1, 2], 2) ∧
    ([3, 4] : List (ZMod 11)).length = ([1, 2] : List (ZMod 11)).length ∧
    ∃ com_f com_q,
      Kzg.commit [(1 : ZMod 11), 2] [3, 4] = some com_f ∧
      Kzg.prove [(1 : ZMod 11), 2] [3, 4] 5 = some com_q ∧
      Kzg.verify com_f com_q 5 (evalPolyAt [(3 : ZMod 11), 4] 5) 2 = true :=
  ⟨by decide, by decide,
    kzg_completeness 1 2 [3, 4] [1, 2] 2 5 (by decide) (by decide)⟩

/-- C2 — Soundness on the honest path: with the commitment and proof produced
by the honest `commit` and `prove` over parameters from `_setup`, `verify`
returns `false` for every claimed value different from the true evaluation in
the scalar field. -/
theorem kzg_soundness_honest {F : Type} [Field F] [DecidableEq F]
    (degree : Int) (alpha : F) (f_coeffs pp : List F)
    (alpha_G2 u v com_f com_q : F)
    (hsetup : Kzg.«_setup» degree alpha = some (pp, alpha_G2))
    (hlen : f_coeffs.length = pp.length)
    (hv : v ≠ evalPolyAt f_coeffs u)
    (hcom : Kzg.commit pp f_coeffs = some com_f)
    (hprove : Kzg.prove pp f_coeffs u = some com_q) :
    Kzg.verify com_f com_q u v alpha_G2 = false := by
  rw [Kzg.verify_honest degree alpha pp alpha_G2 f_coeffs u v com_f com_q
    hsetup hlen hcom hprove]
  simpa using hv

theorem kzg_soundness_honest_witness :
    Kzg.«_setup» (1 : Int) (2 : ZMod 11) = some ([1, 2], 2) ∧
    ([3, 4] : List (ZMod 11)).length = ([1, 2] : List (ZMod 11)).length ∧
    (7 : ZMod 11) ≠ evalPolyAt [(3 : ZMod 11), 4] 5 ∧
    Kzg.commit [(1 : ZMod 11), 2] [3, 4] = some 0 ∧
    Kzg.prove [(1 : ZMod 11), 2] [3, 4] 5 = some 4 ∧
    Kzg.verify (0 : ZMod 11) 4 5 7 2 = false :=
  ⟨by decide, by decide, by decide, by decide, by decide,
    kzg_soundness_honest 1 2 [3, 4] [1, 2] 2 5 7 0 4
      (by decide) (by decide) (by decide) (by decide) (by decide)⟩

/-- C3 — Forgery with the leaked secret: for any coefficient vector matching
the ladder, any point `u` different from the leaked secret `alpha`, and any
claimed value `vFake` whatsoever, the commitment returned by the adversarial
`CheatingKzg.prove` makes `verify` accept `vFake` against the honest
commitment. -/
theorem cheating_kzg_forgery {F : Type} [Field F] [DecidableEq F]
    (degree : Int) (alpha : F) (f_coeffs pp : List F) (alpha_G2 u vFake : F)
    (hsetup : Kzg.«_setup» degree alpha = some (pp, alpha_G2))
    (hlen : f_coeffs.length = pp.length)
    (hne : alpha ≠ u) :
    ∃ com_f com_q,
      Kzg.commit pp f_coeffs = some com_f ∧
      CheatingKzg.prove pp f_coeffs u vFake alpha = some com_q ∧
      Kzg.verify com_f com_q u vFake alpha_G2 = true := by
  have hsub : alpha - u ≠ 0 := sub_ne_zero.mpr hne
  obtain ⟨-, -, haG2⟩ := Kzg.setup_parts degree alpha pp alpha_G2 hsetup
  refine ⟨evalPolyAt f_coeffs alpha,
    (evalPolyAt f_coeffs alpha - vFake) / (alpha - u) * Kzg.G1 F,
    Kzg.commit_setup degree alpha pp alpha_G2 f_coeffs hsetup hlen, ?_, ?_⟩
  · rw [CheatingKzg.prove]
    simp only [CheatingKzg.evalLoop_eq, zero_add, one_mul]
    rw [if_neg hsub]
  · rw [Kzg.verify, haG2]
    simp only [Kzg.pairing, Kzg.G1, Kzg.G2, mul_one]
    rw [div_mul_cancel₀ _ hsub]
    simp

theorem cheating_kzg_forgery_witness :
    Kzg.«_setup» (1 : Int) (2 : ZMod 11) = some ([1, 2], 2) ∧
    ([3, 4] : List (ZMod 11)).length = ([1, 2] : List (ZMod 11)).length ∧
    (2 : ZMod 11) ≠ 5 ∧
    ∃ com_f com_q,
      Kzg.commit [(1 : ZMod 11), 2] [3, 4] = some com_f ∧
      CheatingKzg.prove [(1 : ZMod 11), 2] [3, 4] 5 7 2 = some com_q ∧
      Kzg.verify com_f com_q 5 7 2 = true :=
  ⟨by decide, by decide, by decide,
    cheating_kzg_forgery 1 2 [3, 4] [1, 2] 2 5 7
      (by decide) (by decide) (by decide)⟩

/-- C5 — Degenerate constant input: for a length-1 coefficient vector `[c]`
the honest proof is an empty quotient committed to the group identity, and
`verify` accepts the identity proof for the claimed value `c` against a
commitment under the length-1 ladder `[G1]`, for every point `u` and every
verification key. -/
theorem kzg_degenerate_constant {F : Type} [Field F] [DecidableEq F]
    (c u alpha alpha_G2 : F) (pp : List F) :
    Kzg.prove pp [c] u = some (Kzg.G1_ZERO F) ∧
    ∃ com_f, Kzg.commit (Kzg.setupLoop 1 1 alpha) [c] = some com_f ∧
      Kzg.verify com_f (Kzg.G1_ZERO F) u c alpha_G2 = true := by
  constructor
  · rw [Kzg.prove]
    simp [Kzg.synDivLoop, Kzg.commit, Kzg.commitFold]
  · refine ⟨Kzg.G1_ZERO F + c * (1 * Kzg.G1 F), ?_, ?_⟩
    · rw [Kzg.commit]
      simp [Kzg.setupLoop, Kzg.commitFold]
    · rw [Kzg.verify]
      simp only [Kzg.pairing, Kzg.G1, Kzg.G2, Kzg.G1_ZERO, mul_one]
      simp

/-- C6 (counterexample) — `PolynomialCommitmentScheme.setup` performs no
degree check: at degree `0` it returns normally with a non-empty parameter
ladder and a verification key, instead of failing fatally. -/
theorem pcs_setup_no_degree_check :
    PolynomialCommitmentScheme.setup (0 : Int) (2 : ZMod 11) = ([1], 2) := by
  decide

/-- C6 (amended) — Setup degree precondition: the setups of `Kzg`,
`CheatingKzg` and `ZkKzg` fail fatally for every degree ≤ 0 and return
parameters for every degree ≥ 1; `PolynomialCommitmentScheme.setup` checks
nothing and always returns a ladder of `max 0 (degree + 1)` elements. -/
theorem setup_degree_precondition {F : Type} [Field F] [DecidableEq F]
    (degree : Int) (alpha beta : F) :
    (degree ≤ 0 →
      Kzg.«_setup» degree alpha = none ∧
      Kzg.setup degree alpha = none ∧
      CheatingKzg.setup degree alpha = none ∧
      ZkKzg.«_setup» degree alpha beta = none ∧
      ZkKzg.setup degree alpha beta = none) ∧
    (1 ≤ degree →
      (∃ s, Kzg.«_setup» degree alpha = some s) ∧
      (∃ s, Kzg.setup degree alpha = some s) ∧
      (∃ s, CheatingKzg.setup degree alpha = some s) ∧
      (∃ s, ZkKzg.«_setup» degree alpha beta = some s) ∧
      (∃ s, ZkKzg.setup degree alpha beta = some s)) ∧
    (PolynomialCommitmentScheme.setup degree alpha).1.length =
      (degree + 1).toNat := by
  refine ⟨?_, ?_, ?_⟩
  · intro h
    have hd : ¬ 0 < degree := by omega
    simp [Kzg.«_setup», Kzg.setup, CheatingKzg.setup, ZkKzg.«_setup»,
      ZkKzg.setup, hd]
  · intro h
    have hd : 0 < degree := by omega
    simp [Kzg.«_setup», Kzg.setup, CheatingKzg.setup, ZkKzg.«_setup»,
      ZkKzg.setup, hd]
  · rw [PolynomialCommitmentScheme.setup]
    simp

theorem setup_degree_precondition_witness :
    ((0 : Int) ≤ 0 ∧ (1 : Int) ≤ 1) ∧
    (Kzg.«_setup» (0 : Int) (2 : ZMod 11) = none ∧
      Kzg.setup (0 : Int) (2 : ZMod 11) = none ∧
      CheatingKzg.setup (0 : Int) (2 : ZMod 11) = none ∧
      ZkKzg.«_setup» (0 : Int) (2 : ZMod 11) 3 = none ∧
      ZkKzg.setup (0 : Int) (2 : ZMod 11) 3 = none) ∧
    ((∃ s, Kzg.«_setup» (1 : Int) (2 : ZMod 11) = some s) ∧
      (∃ s, Kzg.setup (1 : Int) (2 : ZMod 11) = some s) ∧
      (∃ s, CheatingKzg.setup (1 : Int) (2 : ZMod 11) = some s) ∧
      (∃ s, ZkKzg.«_setup» (1 : Int) (2 : ZMod 11) 3 = some s) ∧
      (∃ s, ZkKzg.setup (1 : Int) (2 : ZMod 11) 3 = some s)) :=
  ⟨⟨by decide, by decide⟩,
    (setup_degree_precondition (0 : Int) (2 : ZMod 11) 3).1 (by decide),
    (setup_degree_precondition (1 : Int) (2 : ZMod 11) 3).2.1 (by decide)⟩

/-- C7 (counterexample) — `ZkKzg.commit` does not return normally on all
inputs whose lengths satisfy both asserts: with `pp_G1` and `f_coeffs` of
length 2 and `pp_H` and `r_coeffs` both empty, both length checks pass, yet
the accumulation loop reads the missing element `pp_H[0]` and fails. -/
theorem zk_commit_matching_lengths_cex :
    ([(1 : ZMod 11), 1] : List (ZMod 11)).length =
      ([(1 : ZMod 11), 1] : List (ZMod 11)).length ∧
    ([] : List (ZMod 11)).length = ([] : List (ZMod 11)).length ∧
    ZkKzg.commit [(1 : ZMod 11), 1] [] [1, 1] [] = none := by
  decide

/-- C7 (amended) — Commit length precondition: `Kzg.commit` fails fatally
exactly when the coefficient length differs from the ladder length, with no
implicit zero-padding; `ZkKzg.commit` fails whenever either length assert is
violated, and returns normally when both asserts hold and additionally `pp_H`
is at least as long as `pp_G1` (as is the case for the ladders produced by
setup; when `pp_H` is shorter, the loop reads past its end and fails even
though both asserts pass). -/
theorem commit_length_precondition {F : Type} [Field F] [DecidableEq F]
    (pp f_coeffs pp_G1 pp_H f r : List F) :
    (pp.length ≠ f_coeffs.length → Kzg.commit pp f_coeffs = none) ∧
    (pp.length = f_coeffs.length → ∃ c, Kzg.commit pp f_coeffs = some c) ∧
    (pp_G1.length ≠ f.length ∨ pp_H.length ≠ r.length →
      ZkKzg.commit pp_G1 pp_H f r = none) ∧
    (pp_G1.length = f.length → pp_H.length = r.length →
      pp_G1.length ≤ pp_H.length →
      ∃ c, ZkKzg.commit pp_G1 pp_H f r = some c) := by
  refine ⟨?_, ?_, ?_, ?_⟩
  · intro h
    rw [Kzg.commit, if_neg h]
  · intro h
    exact ⟨_, by rw [Kzg.commit, if_pos h]⟩
  · intro h
    rcases h with h | h
    · rw [ZkKzg.commit, if_neg h]
    · rw [ZkKzg.commit]
      by_cases h1 : pp_G1.length = f.length
      · rw [if_pos h1, if_neg h]
      · rw [if_neg h1]
  · intro h1 h2 h3
    rw [ZkKzg.commit, if_pos h1, if_pos h2]
    exact ZkKzg.commitFold_isSome pp_G1 pp_H f r _ h3 (le_of_eq h1)
      (h2 ▸ h3)

theorem commit_length_precondition_witness :
    ([(1 : ZMod 11)].length ≠ ([] : List (ZMod 11)).length) ∧
    Kzg.commit [(1 : ZMod 11)] [] = none ∧
    (∃ c, Kzg.commit [(1 : ZMod 11)] [2] = some c) ∧
    ZkKzg.commit [(1 : ZMod 11)] [1] [2] [] = none ∧
    (∃ c, ZkKzg.commit [(1 : ZMod 11)] [1] [2] [3] = some c) :=
  ⟨by decide,
    (commit_length_precondition [(1 : ZMod 11)] [] [] [] [] []).1 (by decide),
    (commit_length_precondition [(1 : ZMod 11)] [2] [] [] [] []).2.1 (by decide),
    (commit_length_precondition [] [] [(1 : ZMod 11)] [1] [2] []).2.2.1
      (Or.inr (by decide)),
    (commit_length_precondition [] [] [(1 : ZMod 11)] [1] [2] [3]).2.2.2
      (by decide) (by decide) (by decide)⟩

/-- C8 — Public-parameter structure: for degree ≥ 1 the ladder from
`Kzg._setup` has length `degree + 1` with `pp[i] = alpha^i · G1` (so
`pp[0] = G1`) and verification key `alpha · G2`; `ZkKzg._setup` returns the
same G1 ladder, a parallel ladder `pp_H[i] = beta · alpha^i · G1` built from
the same `alpha`, the blinding base `H = beta · G1`, and the same
verification key. -/
theorem setup_parameters_structure {F : Type} [Field F] [DecidableEq F]
    (degree : Int) (alpha beta : F) (pp : List F) (alpha_G2 : F)
    (pp_G1 pp_H : List F) (aG2 H : F)
    (hdeg : 1 ≤ degree)
    (hs : Kzg.«_setup» degree alpha = some (pp, alpha_G2))
    (hz : ZkKzg.«_setup» degree alpha beta = some (pp_G1, pp_H, aG2, H)) :
    pp.length = degree.toNat + 1 ∧
    (∀ i < pp.length, pp.getD i 0 = alpha ^ i * Kzg.G1 F) ∧
    pp.getD 0 0 = Kzg.G1 F ∧
    alpha_G2 = alpha * Kzg.G2 F ∧
    pp_G1 = pp ∧
    pp_H.length = pp.length ∧
    (∀ i < pp_H.length, pp_H.getD i 0 = beta * alpha ^ i * Kzg.G1 F) ∧
    H = beta * Kzg.G1 F ∧
    aG2 = alpha_G2 := by
  obtain ⟨hd, hpp, haG2⟩ := Kzg.setup_parts degree alpha pp alpha_G2 hs
  obtain ⟨-, hpg, hph, hzG2, hH⟩ :=
    ZkKzg.setup_parts_zk degree alpha beta pp_G1 pp_H aG2 H hz
  have hlen : pp.length = degree.toNat + 1 := by
    rw [hpp, Kzg.setupLoop_length]
    omega
  refine ⟨hlen, ?_, ?_, haG2, ?_, ?_, ?_, hH, by rw [hzG2, haG2]⟩
  · intro i hi
    rw [hpp] at hi ⊢
    rw [Kzg.setupLoop_getD _ _ _ _ (by simpa using hi), one_mul]
  · rw [hpp]
    have h0 : 0 < (degree + 1).toNat := by omega
    rw [Kzg.setupLoop_getD _ _ _ _ h0, pow_zero, one_mul, one_mul]
  · rw [hpg, ZkKzg.setupLoop_fst, hpp]
  · rw [hph, ZkKzg.setupLoop_snd_length, hlen]
    omega
  · intro i hi
    rw [hph] at hi ⊢
    rw [ZkKzg.setupLoop_snd_getD _ _ _ _ _ (by simpa using hi)]
    ring

theorem setup_parameters_structure_witness :
    ((1 : Int) ≤ 1 ∧
      Kzg.«_setup» (1 : Int) (2 : ZMod 11) = some ([1, 2], 2) ∧
      ZkKzg.«_setup» (1 : Int) (2 : ZMod 11) 3 = some ([1, 2], [3, 6], 2, 3)) ∧
    (([(1 : ZMod 11), 2] : List (ZMod 11)).length = (1 : Int).toNat + 1 ∧
      (∀ i < ([(1 : ZMod 11), 2] : List (ZMod 11)).length,
        ([(1 : ZMod 11), 2] : List (ZMod 11)).getD i 0 =
          (2 : ZMod 11) ^ i * Kzg.G1 (ZMod 11)) ∧
      ([(1 : ZMod 11), 2] : List (ZMod 11)).getD 0 0 = Kzg.G1 (ZMod 11) ∧
      (2 : ZMod 11) = 2 * Kzg.G2 (ZMod 11) ∧
      ([(1 : ZMod 11), 2] : List (ZMod 11)) = [1, 2] ∧
      ([(3 : ZMod 11), 6] : List (ZMod 11)).length =
        ([(1 : ZMod 11), 2] : List (ZMod 11)).length ∧
      (∀ i < ([(3 : ZMod 11), 6] : List (ZMod 11)).length,
        ([(3 : ZMod 11), 6] : List (ZMod 11)).getD i 0 =
          3 * (2 : ZMod 11) ^ i * Kzg.G1 (ZMod 11)) ∧
      (3 : ZMod 11) = 3 * Kzg.G1 (ZMod 11) ∧
      (2 : ZMod 11) = 2) :=
  ⟨⟨by decide, by decide, by decide⟩,
    setup_parameters_structure 1 2 3 [1, 2] 2 [1, 2] [3, 6] 2 3
      (by decide) (by decide) (by decide)⟩

/-- C10 — Implementation agreement: over the same scalar field, the honest
`PolynomialCommitmentScheme.commit` and `PolynomialCommitmentScheme.prove`
compute exactly the same functions as `Kzg.commit` and `Kzg.prove` on all
inputs. -/
theorem pcs_kzg_agreement {F : Type} [Field F] [DecidableEq F]
    (pp f_coeffs : List F) (u : F) :
    PolynomialCommitmentScheme.commit pp f_coeffs = Kzg.commit pp f_coeffs ∧
    PolynomialCommitmentScheme.prove pp f_coeffs u = Kzg.prove pp f_coeffs u := by
  have hcommit : ∀ (qs fs : List F),
      PolynomialCommitmentScheme.commit qs fs = Kzg.commit qs fs := by
    intro qs fs
    rw [PolynomialCommitmentScheme.commit, Kzg.commit,
      PolynomialCommitmentScheme.commitFold_eq]
    rfl
  refine ⟨hcommit pp f_coeffs, ?_⟩
  cases f_coeffs with
  | nil => rfl
  | cons c tail =>
      rw [PolynomialCommitmentScheme.prove, Kzg.prove,
        PolynomialCommitmentScheme.proveLoop_eq, hcommit]

/-- C4 — Synthetic division: for every non-empty coefficient vector, the
quotient produced by the loop of `prove` has length one less than the input,
satisfies the coefficient-list polynomial identity
`q(x) · (x - u) = f(x) - f(u)` (stated with the repository's own `mulPoly`
and `addPoly`), and one further carry step `f[0] + u · carry` recovers the
evaluation `f(u)`. -/
theorem kzg_synthetic_division {F : Type} [Field F] [DecidableEq F]
    (f_coeffs : List F) (u : F) (h : 1 ≤ f_coeffs.length) :
    ((Kzg.synDivLoop f_coeffs.tail u).1).length = f_coeffs.length - 1 ∧
    mulPoly (Kzg.synDivLoop f_coeffs.tail u).1 [-u, 1] =
      addPoly f_coeffs [-(evalPolyAt f_coeffs u)] ∧
    f_coeffs.getD 0 0 + u * (Kzg.synDivLoop f_coeffs.tail u).2 =
      evalPolyAt f_coeffs u := by
  obtain ⟨c, tail, rfl⟩ : ∃ c t, f_coeffs = c :: t := by
    cases f_coeffs with
    | nil => simp at h
    | cons c t => exact ⟨c, t, rfl⟩
  simp only [List.tail_cons, List.getD_cons_zero, List.length_cons,
    Nat.add_sub_cancel]
  refine ⟨by simp, ?_, ?_⟩
  · apply listToPoly_inj
    · rw [mulPoly_length, addPoly_length]
      simp only [Kzg.synDivLoop_length, List.length_cons, List.length_nil]
      omega
    · rw [listToPoly_mulPoly, listToPoly_addPoly]
      have hlin : listToPoly [-u, (1 : F)] =
          Polynomial.X - Polynomial.C u := by
        simp only [listToPoly_cons, listToPoly_nil, mul_zero, add_zero, map_one,
          map_neg, mul_one]
        ring
      have hconst : listToPoly [-(evalPolyAt (c :: tail) u)] =
          -Polynomial.C (evalPolyAt (c :: tail) u) := by
        simp
      rw [hlin, hconst, synDivLoop_poly]
      simp only [listToPoly_cons, evalPolyAt_cons, map_add, map_mul]
      ring
  · rw [Kzg.synDivLoop_carry]
    simp only [evalPolyAt_cons]
    ring

theorem kzg_synthetic_division_witness :
    (1 ≤ ([3, 2] : List (ZMod 11)).length) ∧
    (((Kzg.synDivLoop ([3, 2] : List (ZMod 11)).tail 5).1).length =
      ([3, 2] : List (ZMod 11)).length - 1 ∧
    mulPoly (Kzg.synDivLoop ([3, 2] : List (ZMod 11)).tail 5).1 [-5, 1] =
      addPoly [3, 2] [-(evalPolyAt [(3 : ZMod 11), 2] 5)] ∧
    ([3, 2] : List (ZMod 11)).getD 0 0 +
        5 * (Kzg.synDivLoop ([3, 2] : List (ZMod 11)).tail 5).2 =
      evalPolyAt [(3 : ZMod 11), 2] 5) :=
  ⟨by decide, kzg_synthetic_division [3, 2] 5 (by decide)⟩

/-- C9 — Interpolation round trip: evaluating a polynomial with a non-zero
leading coefficient at pairwise-distinct points, one point per coefficient,
and reconstructing with `lagrangeInterpolation` returns exactly the original
coefficient vector. -/
theorem lagrange_interpolation_roundtrip {F : Type} [Field F] [DecidableEq F]
    (f_coeffs xs : List F)
    (hlen : xs.length = f_coeffs.length)
    (hnodup : xs.Nodup)
    (hne : f_coeffs ≠ [])
    (hlast : f_coeffs.getLast hne ≠ 0) :
    lagrangeInterpolation (xs.map (fun x => (x, evalPolyAt f_coeffs x))) =
      f_coeffs := by
  classical
  set points := xs.map (fun x => (x, evalPolyAt f_coeffs x)) with hpoints
  have hplen : points.length = xs.length := by simp [hpoints]
  have hget1 : ∀ t : Fin points.length,
      (points.get t).1 = xs.get ⟨t.1, hplen ▸ t.2⟩ := by
    intro t
    simp [hpoints, List.get_eq_getElem, List.getElem_map]
  have hget2 : ∀ t : Fin points.length,
      (points.get t).2 = evalPolyAt f_coeffs (xs.get ⟨t.1, hplen ▸ t.2⟩) := by
    intro t
    simp [hpoints, List.get_eq_getElem, List.getElem_map]
  have hx : ∀ s t : Fin points.length, s ≠ t →
      (points.get s).1 ≠ (points.get t).1 := by
    intro s t hst h
    rw [hget1 s, hget1 t, List.get_eq_getElem, List.get_eq_getElem] at h
    exact hst (Fin.ext (hnodup.getElem_inj_iff.mp h))
  have hfpos : 0 < f_coeffs.length := List.length_pos.mpr hne
  have heval : ∀ v ∈ xs.toFinset,
      Polynomial.eval v
        (listToPoly (points.enum.foldl (lagrangeStep points) [0]) -
          listToPoly f_coeffs) = 0 := by
    intro v hv
    rw [List.mem_toFinset, List.mem_iff_getElem] at hv
    obtain ⟨i, hi, rfl⟩ := hv
    have hk : i < points.length := by omega
    have h := lagrange_poly_eval points hx ⟨i, hk⟩
    rw [hget1 ⟨i, hk⟩, hget2 ⟨i, hk⟩, List.get_eq_getElem] at h
    rw [Polynomial.eval_sub, h, eval_listToPoly, sub_self]
  have hdeg :
      (listToPoly (points.enum.foldl (lagrangeStep points) [0]) -
        listToPoly f_coeffs).natDegree < xs.toFinset.card := by
    rw [List.toFinset_card_of_nodup hnodup]
    have h1 := lagrange_poly_natDegree points
    have h2 := natDegree_listToPoly_le f_coeffs
    have h3 := Polynomial.natDegree_sub_le
      (listToPoly (points.enum.foldl (lagrangeStep points) [0]))
      (listToPoly f_coeffs)
    omega
  have hzero := Polynomial.eq_zero_of_natDegree_lt_card_of_eval_eq_zero'
    (listToPoly (points.enum.foldl (lagrangeStep points) [0]) -
      listToPoly f_coeffs) xs.toFinset heval hdeg
  have hPf : listToPoly (points.enum.foldl (lagrangeStep points) [0]) =
      listToPoly f_coeffs := sub_eq_zero.mp hzero
  have hTP : listToPoly
      (trimTrailingZeros (points.enum.foldl (lagrangeStep points) [0])) =
      listToPoly f_coeffs := by
    rw [listToPoly_trimTrailingZeros, hPf]
  have htne : trimTrailingZeros (points.enum.foldl (lagrangeStep points) [0])
      ≠ [] := by
    intro h
    have hle := length_le_of_listToPoly_eq f_coeffs
      (trimTrailingZeros (points.enum.foldl (lagrangeStep points) [0]))
      hne hlast hTP.symm
    rw [h] at hle
    simp only [List.length_nil, Nat.le_zero] at hle
    exact hne (List.length_eq_zero.mp hle)
  have hfinal := eq_of_listToPoly_eq_of_getLast
    (trimTrailingZeros (points.enum.foldl (lagrangeStep points) [0]))
    f_coeffs htne hne
    (trimTrailingZeros_getLast _ htne) hlast hTP
  simpa only [lagrangeInterpolation] using hfinal

theorem lagrange_interpolation_roundtrip_witness :
    (([0, 1] : List (ZMod 11)).length = ([1, 2] : List (ZMod 11)).length ∧
      ([0, 1] : List (ZMod 11)).Nodup ∧
      ([1, 2] : List (ZMod 11)) ≠ [] ∧
      ([1, 2] : List (ZMod 11)).getLast (by decide) ≠ 0) ∧
    lagrangeInterpolation
      (([0, 1] : List (ZMod 11)).map (fun x => (x, evalPolyAt [1, 2] x))) =
      [1, 2] :=
  ⟨⟨by decide, by decide, by decide, by decide⟩,
    lagrange_interpolation_roundtrip [1, 2] [0, 1]
      (by decide) (by decide) (by decide) (by decide)⟩
